import Mathlib

/-!
Verification of the secure Gmail MCP server (src/index.ts) against its
natural-language specification. The definitions below are a shallow
embedding of the relevant source functions: JS strings become Lean
strings (lists of characters), JS truthiness of an optional string field
is modelled with Option (some s stands for a present, truthy field),
regular-expression replacement is modelled by a left-to-right scan with
an explicit matcher per pattern, and the external mail API is modelled
by oracles passed as arguments. Definitions carry the source function's
name wherever Lean allows it; spec-side (declarative) definitions are
clearly marked as such.
-/

namespace GmailMcp

/-- The characters the JS runtime treats as whitespace (the ECMAScript
WhiteSpace and LineTerminator sets): this is the character class that the
trim method and the regular-expression whitespace class of the source use. -/
def isJsSpace (c : Char) : Bool :=
  [9, 10, 11, 12, 13, 32, 160, 0x1680, 0x2028, 0x2029,
    0x202F, 0x205F, 0x3000, 0xFEFF].contains c.toNat
  || (decide (0x2000 ≤ c.toNat) && decide (c.toNat ≤ 0x200A))

/-- JS String.prototype.trim: drop whitespace characters from both ends. -/
def jsTrim (cs : List Char) : List Char :=
  ((cs.dropWhile isJsSpace).reverse.dropWhile isJsSpace).reverse

/-- One global replacement pass, as JS String.replace with the g flag: scan
left to right; when the matcher fires at the current position it yields the
replacement text and how many characters beyond the first the match
consumed, and scanning resumes after the match; otherwise the current
character is kept. The fuel argument (the input length at the outer call)
only makes the recursion structural; it never runs out. -/
def gsubGo (m : List Char → Option (List Char × Nat)) : Nat → List Char → List Char
  | 0, _ => []
  | _, [] => []
  | fuel + 1, c :: cs =>
    match m (c :: cs) with
    | some (rep, k) => rep ++ gsubGo m fuel (cs.drop k)
    | none => c :: gsubGo m fuel cs

/-- Global replacement over a whole character list. -/
def gsub (m : List Char → Option (List Char × Nat)) (l : List Char) : List Char :=
  gsubGo m l.length l

/-- The matcher of the character class of the two angle brackets, the
pattern sanitizeInput deletes (replacement by the empty string). -/
def angleMatcher : List Char → Option (List Char × Nat)
  | c :: _ => if c = '<' || c = '>' then some ([], 0) else none
  | [] => none

/-- sanitizeInput from src/index.ts: globally delete every angle-bracket
character, then trim surrounding whitespace. -/
def sanitizeInput (s : String) : String :=
  String.mk (jsTrim (gsub angleMatcher s.data))

/-- Spec-side wording of the sanitizer: remove each angle-bracket character
(a plain filter) and trim; to be compared with sanitizeInput. -/
def sanitizeSpec (s : String) : String :=
  String.mk (jsTrim (s.data.filter (fun c => !(c = '<' || c = '>'))))

/-- A character admitted by the bracket classes of the email pattern of
validateEmail: anything that is neither whitespace nor an at sign. -/
def isAddrChar (c : Char) : Bool :=
  !(isJsSpace c) && c != '@'

/-- validateEmail from src/index.ts. The source tests the anchored pattern
`one or more non-space-non-at, at sign, one or more non-space-non-at, dot,
one or more non-space-non-at`. Since neither side of the at sign may
contain an at sign, the pattern's at sign can only match the first at sign
of the string; the part after it matches exactly when it is made of
admitted characters and contains a dot with at least one character before
it and one after it. That is what this function tests. -/
def validateEmail (s : String) : Bool :=
  match s.data.dropWhile (fun c => c != '@') with
  | '@' :: dpart =>
    !(s.data.takeWhile (fun c => c != '@')).isEmpty
      && (s.data.takeWhile (fun c => c != '@')).all isAddrChar
      && dpart.all isAddrChar
      && ((dpart.drop 1).dropLast.contains '.')
  | _ => false

/-- Spec-side shape of an accepted address: local at domain dot tail, with
the three pieces non-empty and free of whitespace and at signs. -/
def emailShape (s : String) : Prop :=
  ∃ lpart dpart tpart : List Char,
    s.data = lpart ++ '@' :: (dpart ++ '.' :: tpart) ∧
    lpart ≠ [] ∧ dpart ≠ [] ∧ tpart ≠ [] ∧
    (∀ c ∈ lpart ++ dpart ++ tpart, isJsSpace c = false ∧ c ≠ '@')

/-- RATE_LIMIT.maxRequests from src/index.ts. -/
def maxRequests : Nat := 50

/-- RATE_LIMIT.windowMs from src/index.ts, in milliseconds. -/
def windowMs : Int := 60000

/-- checkRateLimit from src/index.ts, for one client entry of the request
map: compute the window start, retain the stored timestamps strictly after
it, deny when the retained count has reached the ceiling (the stored entry
is then left as it was, so a denied call records nothing), otherwise store
the retained timestamps with the current time appended and grant. -/
def checkRateLimit (now : Int) (requests : List Int) : Bool × List Int :=
  let validRequests := requests.filter (fun t => now - windowMs < t)
  if maxRequests ≤ validRequests.length then (false, requests)
  else (true, validRequests ++ [now])

/-- Run checkRateLimit over a whole sequence of call times, threading the
stored timestamp list and recording each call's time and verdict. -/
def rlTrace (requests : List Int) : List Int → List (Int × Bool)
  | [] => []
  | now :: rest =>
    let r := checkRateLimit now requests
    (now, r.1) :: rlTrace r.2 rest

/-- Spec-side sliding-window limiter: the state is the full list of admitted
timestamps, and a call is granted exactly when fewer than maxRequests
admitted timestamps lie inside the window ending at the call time. -/
def specTrace (granted : List Int) : List Int → List (Int × Bool)
  | [] => []
  | now :: rest =>
    if (granted.filter (fun t => now - windowMs < t)).length < maxRequests
    then (now, true) :: specTrace (granted ++ [now]) rest
    else (now, false) :: specTrace granted rest

/-- The call times a decision trace granted. -/
def grantedOf (l : List (Int × Bool)) : List Int :=
  (l.filter (fun p => p.2)).map (fun p => p.1)

/-- Membership of a timestamp in the sliding window of length windowMs that
ends at time a + windowMs. -/
def inWindow (a t : Int) : Bool :=
  decide (a < t) && decide (t ≤ a + windowMs)

/-- A message summary of the spam listing. Only the id field matters to
emptySpam; none models an absent (falsy) id, which the loop skips. -/
structure SpamMsg where
  id : Option String
deriving DecidableEq

/-- Whether the loop body of emptySpam attempts a delete call for the
message: exactly when the id field is present. -/
def msgAttempted (m : SpamMsg) : Bool := m.id.isSome

/-- Whether the per-message delete succeeds: the id is present and the
delete call, modelled by the oracle del, does not throw. -/
def msgSuccess (del : String → Bool) (m : SpamMsg) : Bool :=
  match m.id with
  | some i => del i
  | none => false

/-- What the batch loop of emptySpam accumulates: the number of successful
deletions, the number of attempted delete calls, and the number of
inter-batch pauses taken. -/
structure SpamLoopOut where
  deleted : Nat
  attempts : Nat
  pauses : Nat
deriving DecidableEq

/-- The batch loop of emptySpam from src/index.ts: the index advances by the
batch size 50, so each round processes the slice of the next 50 messages,
attempting one delete per message that has an id and counting successes
(failures are logged and skipped); when more messages remain after the
slice, the loop pauses once before continuing. -/
def emptySpamLoop (del : String → Bool) (msgs : List SpamMsg) : SpamLoopOut :=
  if msgs.isEmpty then ⟨0, 0, 0⟩
  else
    let batch := msgs.take 50
    let c := (batch.filter (msgSuccess del)).length
    let att := (batch.filter msgAttempted).length
    let rest := msgs.drop 50
    if rest.isEmpty then ⟨c, att, 0⟩
    else
      let r := emptySpamLoop del rest
      ⟨c + r.deleted, att + r.attempts, 1 + r.pauses⟩
termination_by msgs.length
decreasing_by
  have hne : msgs ≠ [] := by
    intro hh
    subst hh
    simp_all
  have hpos : 0 < msgs.length := List.length_pos.mpr hne
  simp only [List.length_drop]
  omega

/-- The sizes of the slices the batch loop of emptySpam processes, in
order. -/
def batchSizes (msgs : List SpamMsg) : List Nat :=
  if msgs.isEmpty then []
  else if (msgs.drop 50).isEmpty then [(msgs.take 50).length]
  else (msgs.take 50).length :: batchSizes (msgs.drop 50)
termination_by msgs.length
decreasing_by
  have hne : msgs ≠ [] := by
    intro hh
    subst hh
    simp_all
  have hpos : 0 < msgs.length := List.length_pos.mpr hne
  simp only [List.length_drop]
  omega

/-- The observable outcome of one emptySpam call: whether it refused for
lack of confirmation, the totals of its result payload, the number of
inter-batch pauses, the number of per-message delete attempts, and the
number of listing calls made to the external API. -/
structure EmptySpamRun where
  refused : Bool
  totalFound : Nat
  deletedCount : Nat
  pauses : Nat
  attempts : Nat
  listCalls : Nat
deriving DecidableEq

/-- emptySpam from src/index.ts: a falsy confirm returns the structured
refusal before any API call; otherwise one listing call fetches the spam
messages (the del oracle tells which per-message deletes succeed); an empty
listing reports zero deletions; otherwise the batch loop runs and the
result payload reports the total found and the number deleted. -/
def emptySpamModel (confirm : Bool) (spamMessages : List SpamMsg)
    (del : String → Bool) : EmptySpamRun :=
  if !confirm then ⟨true, 0, 0, 0, 0, 0⟩
  else if spamMessages.length = 0 then ⟨false, 0, 0, 0, 0, 1⟩
  else
    let r := emptySpamLoop del spamMessages
    ⟨false, spamMessages.length, r.deleted, r.pauses, r.attempts, 1⟩

/-- The 120-message spam listing used to check the emptySpam batching. -/
def msgs120 : List SpamMsg := List.replicate 120 ⟨some "m"⟩

/-- The outcome of one sendEmail call: a validation failure thrown before
any network call, or a raw message handed to the send endpoint. -/
inductive SendOutcome where
  | validationError (m : String)
  | sent (raw : String)
deriving DecidableEq

/-- The raw message text sendEmail builds: the To header, Cc and Bcc
headers only when those lists are non-empty, the sanitized subject, a
fixed content type, a blank line and the sanitized body, joined with
newlines. The source then encodes this string in URL-safe base64 and posts
exactly it. -/
def buildRawEmail (toRcpt : List String) (subject body : String)
    (cc bcc : List String) : String :=
  let l1 := ["To: " ++ String.intercalate ", " toRcpt]
  let l2 := if cc.length > 0 then l1 ++ ["Cc: " ++ String.intercalate ", " cc] else l1
  let l3 := if bcc.length > 0 then l2 ++ ["Bcc: " ++ String.intercalate ", " bcc] else l2
  String.intercalate "\n" (l3 ++ ["Subject: " ++ sanitizeInput subject,
    "Content-Type: text/plain; charset=utf-8", "", sanitizeInput body])

/-- sendEmail from src/index.ts: the validation sequence (non-empty
recipient array; subject present and at most 255 characters; body present
and at most 10000 characters; every address of to, cc and bcc passing
validateEmail) runs before the send call; the first failing check throws
its validation error and nothing is sent. -/
def sendEmailModel (toRcpt : List String) (subject body : String)
    (cc bcc : List String) : SendOutcome :=
  if toRcpt.isEmpty then
    .validationError "Recipients (to) must be a non-empty array"
  else if (subject == "") || decide (subject.length > 255) then
    .validationError "Subject must be a string with max 255 characters"
  else if (body == "") || decide (body.length > 10000) then
    .validationError "Body must be a string with max 10000 characters"
  else
    match (toRcpt ++ cc ++ bcc).find? (fun e => !(validateEmail e)) with
    | some e => .validationError ("Invalid email address: " ++ e)
    | none => .sent (buildRawEmail toRcpt subject body cc bcc)

/-- A node of the MIME part tree of a message, as the handlers read it: the
mimeType field, the optional body data (some s models a present, truthy
base64 field whose decoded text is s), the filename (empty for an absent or
falsy field), the optional attachment id, and the child parts. -/
inductive MimePart where
  | node (mimeType : String) (bodyData : Option String) (filename : String)
      (attachmentId : Option String) (parts : List MimePart)

/-- The mimeType field of a part. -/
def MimePart.mimeType : MimePart → String
  | .node m _ _ _ _ => m

/-- The decoded body data of a part, when the field is present and truthy. -/
def MimePart.bodyData : MimePart → Option String
  | .node _ d _ _ _ => d

/-- The filename field of a part. -/
def MimePart.filename : MimePart → String
  | .node _ _ f _ _ => f

/-- The attachment id of a part, when present. -/
def MimePart.attachmentId : MimePart → Option String
  | .node _ _ _ a _ => a

/-- The child parts of a part. -/
def MimePart.parts : MimePart → List MimePart
  | .node _ _ _ _ ps => ps

/-- The state the extractContent walk of readEmailHtml threads: the html
and plain-text bodies seen so far (empty string when none yet) and the
count of attachment parts. -/
structure ExtractState where
  htmlBody : String
  textBody : String
  attachmentCount : Nat
deriving DecidableEq

/-- What extractContent does at one node apart from recursing: with body
data present, a text slash html node overwrites the html body and a text
slash plain node overwrites the text body; a node with a filename and an
attachment id bumps the attachment count. -/
def extractStep (s : ExtractState) (p : MimePart) : ExtractState :=
  let s1 :=
    match p.bodyData with
    | some content =>
      if p.mimeType = "text/html" then { s with htmlBody := content }
      else if p.mimeType = "text/plain" then { s with textBody := content }
      else s
    | none => s
  if p.filename ≠ "" && p.attachmentId.isSome then
    { s1 with attachmentCount := s1.attachmentCount + 1 }
  else s1

/-- The extractContent recursion of readEmailHtml over a list of sibling
parts: each node is processed and then its children, depth first, in
order. -/
def extractWalk : List MimePart → ExtractState → ExtractState
  | [], s => s
  | .node m d f a kids :: rest, s =>
    extractWalk rest (extractWalk kids (extractStep s (.node m d f a kids)))

/-- extractContent applied to one payload, as readEmailHtml calls it. -/
def extractContent (p : MimePart) (s : ExtractState) : ExtractState :=
  extractWalk [p] s

/-- Spec-side preorder listing of a part forest: each node before its
children, siblings in order. This is the order extractContent visits. -/
def preorder : List MimePart → List MimePart
  | [] => []
  | .node m d f a kids :: rest =>
    .node m d f a kids :: (preorder kids ++ preorder rest)

/-- The decoded html body one node carries, when its type is text slash
html and its data is present. -/
def htmlData1 (p : MimePart) : Option String :=
  match p.bodyData with
  | some c => if p.mimeType = "text/html" then some c else none
  | none => none

/-- The decoded plain-text body one node carries, when its type is text
slash plain and its data is present. -/
def textData1 (p : MimePart) : Option String :=
  match p.bodyData with
  | some c => if p.mimeType = "text/plain" then some c else none
  | none => none

/-- The decoded html bodies a part list carries, in order. -/
def htmlDatas (l : List MimePart) : List String :=
  l.filterMap htmlData1

/-- The decoded plain-text bodies a part list carries, in order. -/
def textDatas (l : List MimePart) : List String :=
  l.filterMap textData1

/-- Whether a node counts as an attachment for readEmailHtml: a filename
and an attachment id are both present. -/
def isAttachmentPart (p : MimePart) : Bool :=
  p.filename ≠ "" && p.attachmentId.isSome

/-- The last element of a list of strings, or the fallback. -/
def lastD (l : List String) (d : String) : String := l.getLast?.getD d

/-- Matcher of the break-tag pattern of readEmailHtml: an angle bracket, b
or B, r or R, any whitespace, an optional slash, a closing bracket;
replaced by one newline. -/
def brMatcher : List Char → Option (List Char × Nat)
  | '<' :: c1 :: c2 :: rest =>
    if (c1 = 'b' || c1 = 'B') && (c2 = 'r' || c2 = 'R') then
      match rest.dropWhile isJsSpace with
      | '/' :: '>' :: _ => some (['\n'], 2 + (rest.takeWhile isJsSpace).length + 2)
      | '>' :: _ => some (['\n'], 2 + (rest.takeWhile isJsSpace).length + 1)
      | _ => none
    else none
  | _ => none

/-- Matcher of the closing-paragraph tag, case insensitive; replaced by two
newlines. -/
def pCloseMatcher : List Char → Option (List Char × Nat)
  | '<' :: '/' :: c :: '>' :: _ =>
    if c = 'p' || c = 'P' then some (['\n', '\n'], 3) else none
  | _ => none

/-- Matcher of a whole tag: an angle bracket, any characters other than a
closing bracket, a closing bracket; deleted. -/
def tagMatcher : List Char → Option (List Char × Nat)
  | '<' :: rest =>
    match rest.dropWhile (fun c => c != '>') with
    | '>' :: _ => some ([], (rest.takeWhile (fun c => c != '>')).length + 1)
    | _ => none
  | _ => none

/-- Matcher of a fixed entity text, replaced by its character. -/
def entityMatcher (pat rep : List Char) : List Char → Option (List Char × Nat) :=
  fun l => if pat.isPrefixOf l then some (rep, pat.length - 1) else none

/-- The html-to-text conversion of readEmailHtml, applied when no
plain-text body was kept: collapse break tags to newlines and closing
paragraph tags to blank lines, strip the remaining tags, unescape the five
fixed entities in the source's order, and trim. -/
def htmlToText (h : String) : String :=
  String.mk (jsTrim
    (gsub (entityMatcher "&quot;".data ['"'])
    (gsub (entityMatcher "&gt;".data ['>'])
    (gsub (entityMatcher "&lt;".data ['<'])
    (gsub (entityMatcher "&amp;".data ['&'])
    (gsub (entityMatcher "&nbsp;".data [' '])
    (gsub tagMatcher
    (gsub pCloseMatcher
    (gsub brMatcher h.data)))))))))

/-- JS String.prototype.substring with start 0: the first n characters. -/
def strTake (s : String) (n : Nat) : String := String.mk (s.data.take n)

/-- The content fields of the readEmailHtml result payload. -/
structure HtmlEmailView where
  textContent : String
  hasHtml : Bool
  attachmentCount : Nat
  contentType : String
deriving DecidableEq

/-- readEmailHtml from src/index.ts, restricted to its content fields: run
extractContent over the payload from the empty state, fall back to the
html-derived text exactly when the kept text body is empty and the kept
html body is not, truncate to 10000 characters, and report whether html
was seen. -/
def readEmailHtmlModel (payload : MimePart) : HtmlEmailView :=
  let st := extractContent payload ⟨"", "", 0⟩
  let readableContent :=
    if (st.textBody == "") && (st.htmlBody != "") then htmlToText st.htmlBody
    else st.textBody
  { textContent := strTake readableContent 10000
    hasHtml := st.htmlBody != ""
    attachmentCount := st.attachmentCount
    contentType := if st.htmlBody != "" then "html" else "text" }

/-- The top-level plain-text scan of readEmail: walk the immediate parts in
order and return the decoded data of the first text slash plain part that
carries data; the empty string when none does. -/
def scanTopLevel : List MimePart → String
  | [] => ""
  | q :: rest =>
    if q.mimeType = "text/plain" then
      match q.bodyData with
      | some d => d
      | none => scanTopLevel rest
    else scanTopLevel rest

/-- extractBody from readEmail in src/index.ts: body data directly on the
payload is returned as is, whatever its MIME type; only otherwise are the
immediate parts scanned, without recursion into nested containers. -/
def extractBody (payload : MimePart) : String :=
  match payload.bodyData with
  | some d => d
  | none => scanTopLevel payload.parts

/-- The body field of the readEmail payload: truncated to 5000 characters. -/
def readEmailBody (payload : MimePart) : String :=
  strTake (extractBody payload) 5000

/-- Spec-side wording of the readEmail scan: the data of the first
immediate part whose type is text slash plain and which carries body
data. -/
def firstPlainTop (payload : MimePart) : Option String :=
  (payload.parts.find?
    (fun q => (q.mimeType == "text/plain") && q.bodyData.isSome)).bind
    MimePart.bodyData

/-- A part with its children removed: used to state that the readEmail scan
never descends into nested containers. -/
def pruneChild (p : MimePart) : MimePart :=
  .node p.mimeType p.bodyData p.filename p.attachmentId []

/-- The value of one URL-safe base64 alphabet character, none for a
character outside the alphabet (the decoder skips those). -/
def b64UrlVal (c : Char) : Option Nat :=
  if 'A' ≤ c ∧ c ≤ 'Z' then some (c.toNat - 65)
  else if 'a' ≤ c ∧ c ≤ 'z' then some (c.toNat - 97 + 26)
  else if '0' ≤ c ∧ c ≤ '9' then some (c.toNat - 48 + 52)
  else if c = '-' then some 62
  else if c = '_' then some 63
  else none

/-- Reassembly of bytes from six-bit groups, as the base64 decoder does:
four groups give three bytes; a final pair gives one byte, a final triple
two, and a lone group nothing. -/
def sextetsToBytes : List Nat → List Nat
  | a :: b :: c :: d :: rest =>
    (a * 4 + b / 16) :: ((b % 16) * 16 + c / 4) :: ((c % 4) * 64 + d)
      :: sextetsToBytes rest
  | [a, b] => [a * 4 + b / 16]
  | [a, b, c] => [a * 4 + b / 16, (b % 16) * 16 + c / 4]
  | _ => []

/-- Decoding of URL-safe base64 text to bytes, as Buffer.from with the
base64url encoding does in downloadAttachment. -/
def base64urlDecode (s : String) : List Nat :=
  sextetsToBytes (s.data.filterMap b64UrlVal)

/-- Spec-side URL-safe base64 alphabet character of a six-bit value. -/
def b64UrlChar (n : Nat) : Char :=
  if n < 26 then Char.ofNat (65 + n)
  else if n < 52 then Char.ofNat (97 + (n - 26))
  else if n < 62 then Char.ofNat (48 + (n - 52))
  else if n = 62 then '-'
  else '_'

/-- Spec-side split of bytes into six-bit groups (the inverse direction of
sextetsToBytes), used to state that the decoder inverts the encoding. -/
def bytesToSextets : List Nat → List Nat
  | a :: b :: c :: rest =>
    (a / 4) :: ((a % 4) * 16 + b / 16) :: ((b % 16) * 4 + c / 64) :: (c % 64)
      :: bytesToSextets rest
  | [a] => [a / 4, (a % 4) * 16]
  | [a, b] => [a / 4, (a % 4) * 16 + b / 16, (b % 16) * 4]
  | [] => []

/-- Spec-side URL-safe base64 encoding of a byte list, without padding. -/
def base64urlEncode (bs : List Nat) : String :=
  String.mk ((bytesToSextets bs).map b64UrlChar)

/-- What downloadAttachment writes and reports: the bytes written to the
downloads file and the size field of the response. -/
structure DownloadResult where
  written : List Nat
  size : Nat
deriving DecidableEq

/-- downloadAttachment from src/index.ts, given the data field the
attachment endpoint returned: a missing or empty field throws; otherwise
the data is decoded from URL-safe base64, exactly the decoded buffer is
written to the downloads file, and the reported size is that buffer's byte
count. -/
def downloadAttachmentModel (attachmentData : Option String) :
    Option DownloadResult :=
  match attachmentData with
  | none => none
  | some d =>
    if d = "" then none
    else
      let buffer := base64urlDecode d
      some ⟨buffer, buffer.length⟩

/-- Counterexample payload for the readEmailHtml claim: two plain-text
parts, A then B. -/
def cexHtmlPayload : MimePart :=
  .node "multipart/mixed" none "" none
    [.node "text/plain" (some "A") "" none [],
     .node "text/plain" (some "B") "" none []]

/-- Counterexample payload for the readEmail claim: direct html body data
on the payload and a plain-text part beneath it. -/
def cexReadPayload : MimePart :=
  .node "text/html" (some "<h1>x</h1>") "" none
    [.node "text/plain" (some "hello") "" none []]

end GmailMcp

namespace GmailMcp

/-- A filter pass and a global delete of single characters agree: the scan
that drops every matched bracket is the filter that keeps the others. -/
theorem gsub_angle_eq_filter (l : List Char) :
    gsub angleMatcher l = l.filter (fun c => !(c = '<' || c = '>')) := by
  suffices h : ∀ fuel l, l.length ≤ fuel →
      gsubGo angleMatcher fuel l = l.filter (fun c => !(c = '<' || c = '>')) from
    h l.length l le_rfl
  intro fuel
  induction fuel with
  | zero =>
    intro l hl
    have : l = [] := List.length_eq_zero.mp (Nat.le_zero.mp hl)
    subst this; rfl
  | succ n ih =>
    intro l hl
    match l with
    | [] => rfl
    | c :: cs =>
      simp only [List.length_cons, Nat.succ_le_succ_iff] at hl
      have hrec := ih cs hl
      by_cases h1 : c = '<'
      · simp [gsubGo, angleMatcher, h1, hrec, List.filter_cons]
      · by_cases h2 : c = '>'
        · simp [gsubGo, angleMatcher, h1, h2, hrec, List.filter_cons]
        · simp [gsubGo, angleMatcher, h1, h2, hrec, List.filter_cons]

/-- A character strictly inside a list (neither first nor last) splits the
list into a non-empty front and a non-empty back around it. -/
theorem exists_internal_split {c : Char} {l : List Char}
    (h : c ∈ (l.drop 1).dropLast) :
    ∃ a b : List Char, l = a ++ c :: b ∧ a ≠ [] ∧ b ≠ [] := by
  match l with
  | [] => simp at h
  | x :: l' =>
    simp only [List.drop_succ_cons, List.drop_zero] at h
    have hne : l' ≠ [] := by
      intro he
      rw [he] at h
      simp at h
    obtain ⟨s, t, hst⟩ := List.append_of_mem h
    have hl' : l' = s ++ c :: (t ++ [l'.getLast hne]) := by
      conv_lhs => rw [← List.dropLast_append_getLast hne]
      rw [hst]
      simp
    refine ⟨x :: s, t ++ [l'.getLast hne], ?_, by simp, by simp⟩
    conv_lhs => rw [hl']
    simp

/-- On a list starting with at-sign-free characters and then an at sign, the
split of validateEmail lands exactly on that at sign. -/
theorem split_at_first_at (L M : List Char) (hL : ∀ c ∈ L, c ≠ '@') :
    (L ++ '@' :: M).takeWhile (fun c => c != '@') = L ∧
    (L ++ '@' :: M).dropWhile (fun c => c != '@') = '@' :: M := by
  induction L with
  | nil => simp [List.takeWhile, List.dropWhile]
  | cons x xs ih =>
    have hx : x ≠ '@' := hL x (by simp)
    have hr := ih (fun c hc => hL c (by simp [hc]))
    simp [List.takeWhile_cons, List.dropWhile_cons, hx, hr.1, hr.2]

/-- Unfolding of the admitted-character test into its two conditions. -/
theorem isAddrChar_iff (c : Char) :
    isAddrChar c = true ↔ isJsSpace c = false ∧ c ≠ '@' := by
  simp [isAddrChar, Bool.and_eq_true, Bool.not_eq_true', bne_iff_ne]

/-- C9: validateEmail accepts exactly the strings of shape local at domain
dot tail with all three pieces non-empty and free of whitespace and at
signs, and it gives the spec's three example verdicts. -/
theorem validateEmail_shape :
    (∀ s : String, validateEmail s = true ↔ emailShape s) ∧
    validateEmail "a@b.co" = true ∧
    validateEmail "not-an-email" = false ∧
    validateEmail "a@b" = false := by
  refine ⟨?_, by decide, by decide, by decide⟩
  intro s
  constructor
  · intro h
    unfold validateEmail at h
    split at h
    case h_2 => exact absurd h (by simp)
    case h_1 dpart heq =>
      simp only [Bool.and_eq_true, Bool.not_eq_true', List.isEmpty_eq_false,
        List.all_eq_true] at h
      obtain ⟨⟨⟨h1, h2⟩, h3⟩, h4⟩ := h
      have h4' : '.' ∈ (dpart.drop 1).dropLast := by
        simpa [List.contains, List.elem_iff] using h4
      obtain ⟨D, T, hDT, hD, hT⟩ := exists_internal_split h4'
      refine ⟨s.data.takeWhile (fun c => c != '@'), D, T, ?_, h1, hD, hT, ?_⟩
      · conv_lhs => rw [← List.takeWhile_append_dropWhile (fun c => c != '@') s.data]
        rw [heq, hDT]
      · intro c hc
        rw [List.append_assoc, List.mem_append] at hc
        rcases hc with hc | hc
        · exact (isAddrChar_iff c).mp (h2 c hc)
        · refine (isAddrChar_iff c).mp (h3 c ?_)
          rw [hDT]
          rcases List.mem_append.mp hc with hc | hc
          · exact List.mem_append.mpr (Or.inl hc)
          · exact List.mem_append.mpr (Or.inr (List.mem_cons_of_mem _ hc))
  · rintro ⟨L, D, T, hs, hL, hD, hT, hchars⟩
    have hLat : ∀ c ∈ L, c ≠ '@' := fun c hc =>
      (hchars c (by simp [hc])).2
    have hsplit := split_at_first_at L (D ++ '.' :: T) hLat
    unfold validateEmail
    rw [hs, hsplit.1, hsplit.2]
    simp only [Bool.and_eq_true, Bool.not_eq_true', List.isEmpty_eq_false,
      List.all_eq_true]
    refine ⟨⟨⟨hL, ?_⟩, ?_⟩, ?_⟩
    · intro c hc
      exact (isAddrChar_iff c).mpr (hchars c (by simp [hc]))
    · intro c hc
      rcases List.mem_append.mp hc with hc | hc
      · exact (isAddrChar_iff c).mpr (hchars c (by simp [hc]))
      · rcases List.mem_cons.mp hc with rfl | hc
        · decide
        · exact (isAddrChar_iff c).mpr (hchars c (by simp [hc]))
    · obtain ⟨d, D', rfl⟩ := List.exists_cons_of_ne_nil hD
      obtain ⟨t, T', rfl⟩ := List.exists_cons_of_ne_nil hT
      simp only [List.cons_append, List.drop_succ_cons, List.drop_zero,
        List.dropLast_append_cons, List.dropLast_cons₂]
      simp [List.contains, List.elem_iff]

/-- A granted head of a trace contributes its call time. -/
theorem grantedOf_cons_true (now : Int) (l : List (Int × Bool)) :
    grantedOf ((now, true) :: l) = now :: grantedOf l := by
  simp [grantedOf]

/-- A denied head of a trace contributes nothing. -/
theorem grantedOf_cons_false (now : Int) (l : List (Int × Bool)) :
    grantedOf ((now, false) :: l) = grantedOf l := by
  simp [grantedOf]

/-- The implementation trace and the spec trace agree, given that the call
times are non-decreasing and at least lb, and that the stored list and the
admitted list agree once filtered to any window ending at or after lb. -/
theorem rlTrace_eq_specTrace :
    ∀ (ts s g : List Int) (lb : Int),
      (∀ t ∈ ts, lb ≤ t) → List.Sorted (· ≤ ·) ts →
      (∀ c : Int, lb ≤ c →
        s.filter (fun t => c - windowMs < t) = g.filter (fun t => c - windowMs < t)) →
      rlTrace s ts = specTrace g ts := by
  intro ts
  induction ts with
  | nil => intro s g lb _ _ _; rfl
  | cons now rest ih =>
    intro s g lb hlb hsort hfilt
    obtain ⟨hall, hsort'⟩ := List.sorted_cons.mp hsort
    have hnow : lb ≤ now := hlb now (List.mem_cons_self _ _)
    have hfe := hfilt now hnow
    by_cases hcnt : (g.filter (fun t => now - windowMs < t)).length < maxRequests
    · have hs : ¬ maxRequests ≤ (s.filter (fun t => now - windowMs < t)).length := by
        rw [hfe]; omega
      simp only [rlTrace, specTrace, checkRateLimit, if_neg hs, if_pos hcnt]
      congr 1
      apply ih _ _ now hall hsort'
      intro c hc
      rw [List.filter_append, List.filter_append, List.filter_filter]
      have hps : s.filter (fun t =>
          decide (c - windowMs < t) && decide (now - windowMs < t)) =
          s.filter (fun t => decide (c - windowMs < t)) := by
        apply List.filter_congr
        intro t _
        by_cases h : c - windowMs < t
        · have h2 : now - windowMs < t := by omega
          simp [h, h2]
        · simp [h]
      rw [hps, hfilt c (le_trans hnow hc)]
    · have hs : maxRequests ≤ (s.filter (fun t => now - windowMs < t)).length := by
        rw [hfe]; omega
      simp only [rlTrace, specTrace, checkRateLimit, if_pos hs, if_neg hcnt]
      congr 1
      apply ih _ _ now hall hsort'
      intro c hc
      exact hfilt c (le_trans hnow hc)

/-- Window bound of the spec-side limiter: if the already admitted
timestamps respect the per-window ceiling and precede all remaining call
times, the admitted timestamps after the whole trace still respect it. -/
theorem specTrace_window_bound :
    ∀ (ts g : List Int),
      List.Sorted (· ≤ ·) ts →
      (∀ t ∈ g, ∀ u ∈ ts, t ≤ u) →
      (∀ a : Int, g.countP (inWindow a) ≤ maxRequests) →
      ∀ a : Int, (g ++ grantedOf (specTrace g ts)).countP (inWindow a) ≤ maxRequests := by
  intro ts
  induction ts with
  | nil => intro g _ _ hbound a; simpa [specTrace, grantedOf] using hbound a
  | cons now rest ih =>
    intro g hsort hle hbound a
    obtain ⟨hall, hsort'⟩ := List.sorted_cons.mp hsort
    by_cases hcnt : (g.filter (fun t => now - windowMs < t)).length < maxRequests
    · simp only [specTrace, if_pos hcnt, grantedOf_cons_true]
      have hshape : g ++ now :: grantedOf (specTrace (g ++ [now]) rest) =
          (g ++ [now]) ++ grantedOf (specTrace (g ++ [now]) rest) := by
        simp
      rw [hshape]
      apply ih (g ++ [now]) hsort'
      · intro t ht u hu
        rcases List.mem_append.mp ht with ht | ht
        · exact hle t ht u (List.mem_cons_of_mem _ hu)
        · rcases List.mem_cons.mp ht with rfl | h
          · exact hall u hu
          · exact absurd h (List.not_mem_nil t)
      · intro b
        rw [List.countP_append]
        by_cases hin : inWindow b now = true
        · have hb : b < now ∧ now ≤ b + windowMs := by
            simpa [inWindow, Bool.and_eq_true] using hin
          have hmono : g.countP (inWindow b) ≤
              g.countP (fun t => decide (now - windowMs < t)) := by
            apply List.countP_mono_left
            intro x _ hx
            have hx' : b < x ∧ x ≤ b + windowMs := by
              simpa [inWindow, Bool.and_eq_true] using hx
            have : now - windowMs < x := by omega
            simpa using this
          have hlen : g.countP (fun t => decide (now - windowMs < t)) =
              (g.filter (fun t => now - windowMs < t)).length := by
            rw [List.countP_eq_length_filter]
          have hone : List.countP (inWindow b) [now] ≤ 1 := by
            simp [List.countP_cons, hin]
          omega
        · have hzero : List.countP (inWindow b) [now] = 0 := by
            simp [List.countP_cons, hin]
          have := hbound b
          omega
    · simp only [specTrace, if_neg hcnt, grantedOf_cons_false]
      exact ih g hsort' (fun t ht u hu => hle t ht u (List.mem_cons_of_mem _ hu)) hbound a

/-- C1: over any non-decreasing sequence of call times the limiter grants at
most maxRequests calls inside any window of length windowMs; each call is
granted exactly when fewer than maxRequests already admitted timestamps lie
in the window ending at the call time (so once the window holds the ceiling,
calls are denied until the oldest admitted timestamp leaves it); and a
denied call leaves the stored timestamps unchanged. -/
theorem rateLimit_window_bound (ts : List Int) (hts : List.Sorted (· ≤ ·) ts) :
    (∀ a : Int, (grantedOf (rlTrace [] ts)).countP (inWindow a) ≤ maxRequests) ∧
    rlTrace [] ts = specTrace [] ts ∧
    (∀ (now : Int) (s : List Int),
      (checkRateLimit now s).1 = false → (checkRateLimit now s).2 = s) := by
  have hbridge : rlTrace [] ts = specTrace [] ts := by
    cases ts with
    | nil => rfl
    | cons now rest =>
      apply rlTrace_eq_specTrace (now :: rest) [] [] now
      · intro t ht
        rcases List.mem_cons.mp ht with rfl | ht
        · exact le_rfl
        · exact (List.sorted_cons.mp hts).1 t ht
      · exact hts
      · intro c _; rfl
  refine ⟨?_, hbridge, ?_⟩
  · intro a
    rw [hbridge]
    have := specTrace_window_bound ts [] hts (by simp) (by simp [maxRequests]) a
    simpa using this
  · intro now s h
    by_cases hc : maxRequests ≤ (s.filter (fun t => now - windowMs < t)).length
    · simp [checkRateLimit, hc]
    · simp [checkRateLimit, hc] at h

/-- Concrete run of the rate-limit theorem on the sorted call times 0, 1. -/
theorem rateLimit_window_bound_checked :
    List.Sorted (· ≤ ·) [(0 : Int), 1] ∧
    ((∀ a : Int,
        (grantedOf (rlTrace [] [(0 : Int), 1])).countP (inWindow a) ≤ maxRequests) ∧
      rlTrace [] [(0 : Int), 1] = specTrace [] [(0 : Int), 1] ∧
      (∀ (now : Int) (s : List Int),
        (checkRateLimit now s).1 = false → (checkRateLimit now s).2 = s)) :=
  ⟨by decide, rateLimit_window_bound [(0 : Int), 1] (by decide)⟩

/-- Counting both verdicts of a Boolean predicate covers the list. -/
theorem countP_bool_split {α : Type} (p : α → Bool) (l : List α) :
    l.countP p + l.countP (fun a => !(p a)) = l.length := by
  induction l with
  | nil => simp
  | cons x xs ih =>
    by_cases h : p x <;> simp [List.countP_cons, h] <;> omega

/-- The batch loop deletes exactly the messages whose delete succeeds and
attempts exactly the messages that carry an id, over the whole listing. -/
theorem emptySpamLoop_counts (del : String → Bool) :
    ∀ (n : Nat) (msgs : List SpamMsg), msgs.length ≤ n →
      (emptySpamLoop del msgs).deleted = msgs.countP (msgSuccess del) ∧
      (emptySpamLoop del msgs).attempts = msgs.countP msgAttempted := by
  intro n
  induction n with
  | zero =>
    intro msgs h
    have : msgs = [] := List.length_eq_zero.mp (Nat.le_zero.mp h)
    subst this
    simp [emptySpamLoop]
  | succ k ih =>
    intro msgs h
    by_cases he : msgs.isEmpty
    · have : msgs = [] := List.isEmpty_iff.mp he
      subst this
      simp [emptySpamLoop]
    · have hsplit : ∀ p : SpamMsg → Bool,
          msgs.countP p = (msgs.take 50).countP p + (msgs.drop 50).countP p := by
        intro p
        conv_lhs => rw [← List.take_append_drop 50 msgs]
        rw [List.countP_append]
      rw [emptySpamLoop]
      by_cases hr : (msgs.drop 50).isEmpty
      · have hd : msgs.drop 50 = [] := List.isEmpty_iff.mp hr
        simp only [he, hr, if_neg, if_pos, Bool.false_eq_true, if_false, if_true]
        constructor
        · rw [hsplit (msgSuccess del), hd]
          simp [List.countP_eq_length_filter]
        · rw [hsplit msgAttempted, hd]
          simp [List.countP_eq_length_filter]
      · have hlen : (msgs.drop 50).length ≤ k := by
          have h0 : msgs ≠ [] := fun hh => by simp [hh] at he
          have hpos : 0 < msgs.length := List.length_pos.mpr h0
          simp only [List.length_drop]
          omega
        obtain ⟨ih1, ih2⟩ := ih (msgs.drop 50) hlen
        simp only [he, hr, Bool.false_eq_true, if_false]
        constructor
        · show ((msgs.take 50).filter (msgSuccess del)).length
              + (emptySpamLoop del (msgs.drop 50)).deleted
              = msgs.countP (msgSuccess del)
          rw [ih1, hsplit (msgSuccess del)]
          simp [List.countP_eq_length_filter]
        · show ((msgs.take 50).filter msgAttempted).length
              + (emptySpamLoop del (msgs.drop 50)).attempts
              = msgs.countP msgAttempted
          rw [ih2, hsplit msgAttempted]
          simp [List.countP_eq_length_filter]

/-- One unfolding of the batch loop when a later batch remains. -/
theorem emptySpamLoop_pauses_step (del : String → Bool) (msgs : List SpamMsg)
    (he : ¬ msgs.isEmpty = true) (hr : ¬ (msgs.drop 50).isEmpty = true) :
    (emptySpamLoop del msgs).pauses = 1 + (emptySpamLoop del (msgs.drop 50)).pauses := by
  rw [emptySpamLoop]
  simp only [he, hr, Bool.false_eq_true, if_false]

/-- The last unfolding of the batch loop: no pause after the final batch. -/
theorem emptySpamLoop_pauses_last (del : String → Bool) (msgs : List SpamMsg)
    (hr : (msgs.drop 50).isEmpty = true) :
    (emptySpamLoop del msgs).pauses = 0 := by
  rw [emptySpamLoop]
  by_cases he : msgs.isEmpty <;> simp [he, hr]

/-- One unfolding of the batch-size list when a later batch remains. -/
theorem batchSizes_step (msgs : List SpamMsg)
    (he : ¬ msgs.isEmpty = true) (hr : ¬ (msgs.drop 50).isEmpty = true) :
    batchSizes msgs = (msgs.take 50).length :: batchSizes (msgs.drop 50) := by
  rw [batchSizes]
  simp only [he, hr, Bool.false_eq_true, if_false]

/-- The last unfolding of the batch-size list. -/
theorem batchSizes_last (msgs : List SpamMsg)
    (he : ¬ msgs.isEmpty = true) (hr : (msgs.drop 50).isEmpty = true) :
    batchSizes msgs = [(msgs.take 50).length] := by
  rw [batchSizes]
  simp only [he, hr, Bool.false_eq_true, if_false, if_true]

/-- C2: a confirmed emptySpam over a 120-message listing with every message
carrying an id proceeds in three batches of sizes 50, 50 and 20 with
exactly two inter-batch pauses, attempts every per-message delete, and
reports a deletedCount of the total found minus the per-message failures. -/
theorem emptySpam_batches (msgs : List SpamMsg) (del : String → Bool)
    (h120 : msgs.length = 120) (hid : ∀ m ∈ msgs, m.id.isSome) :
    batchSizes msgs = [50, 50, 20] ∧
    (emptySpamModel true msgs del).pauses = 2 ∧
    (emptySpamModel true msgs del).attempts = 120 ∧
    (emptySpamModel true msgs del).deletedCount =
      120 - msgs.countP (fun m => !(msgSuccess del m)) ∧
    (emptySpamModel true msgs del).totalFound = 120 := by
  have hne : ¬ msgs.isEmpty = true := by
    intro hh
    rw [List.isEmpty_iff.mp hh] at h120
    simp at h120
  have hlen1 : (msgs.drop 50).length = 70 := by
    simp [List.length_drop, h120]
  have hdd : (msgs.drop 50).drop 50 = msgs.drop 100 := by
    rw [List.drop_drop]
  have hlen2 : (msgs.drop 100).length = 20 := by
    simp [List.length_drop, h120]
  have hdd2 : (msgs.drop 100).drop 50 = msgs.drop 150 := by
    rw [List.drop_drop]
  have hlen3 : (msgs.drop 150).length = 0 := by
    simp [List.length_drop, h120]
  have hne1 : ¬ (msgs.drop 50).isEmpty = true := by
    intro hh
    rw [List.isEmpty_iff.mp hh] at hlen1
    simp at hlen1
  have hne2 : ¬ (msgs.drop 100).isEmpty = true := by
    intro hh
    rw [List.isEmpty_iff.mp hh] at hlen2
    simp at hlen2
  have hemp3 : (msgs.drop 150).isEmpty = true := by
    rw [List.length_eq_zero.mp hlen3]
    rfl
  have htake1 : (msgs.take 50).length = 50 := by
    simp [List.length_take, h120]
  have htake2 : ((msgs.drop 50).take 50).length = 50 := by
    simp [List.length_take, hlen1]
  have htake3 : ((msgs.drop 100).take 50).length = 20 := by
    simp [List.length_take, hlen2]
  have hmodel : emptySpamModel true msgs del =
      ⟨false, msgs.length, (emptySpamLoop del msgs).deleted,
        (emptySpamLoop del msgs).pauses, (emptySpamLoop del msgs).attempts, 1⟩ := by
    rw [emptySpamModel]
    simp only [Bool.not_true, Bool.false_eq_true, if_false]
    rw [if_neg (by omega)]
  have hcounts := emptySpamLoop_counts del msgs.length msgs le_rfl
  refine ⟨?_, ?_, ?_, ?_, ?_⟩
  · rw [batchSizes_step msgs hne hne1, batchSizes_step _ hne1 (hdd ▸ hne2),
      hdd, batchSizes_last _ hne2 (hdd2 ▸ hemp3), htake1, htake2, htake3]
  · rw [hmodel]
    show (emptySpamLoop del msgs).pauses = 2
    rw [emptySpamLoop_pauses_step del msgs hne hne1,
      emptySpamLoop_pauses_step del _ hne1 (hdd ▸ hne2), hdd,
      emptySpamLoop_pauses_last del _ (hdd2 ▸ hemp3)]
  · rw [hmodel]
    show (emptySpamLoop del msgs).attempts = 120
    have hid' : ∀ m ∈ msgs, msgAttempted m = true := fun m hm => hid m hm
    rw [hcounts.2, List.countP_eq_length.mpr hid']
    exact h120
  · rw [hmodel]
    show (emptySpamLoop del msgs).deleted = _
    rw [hcounts.1]
    have hsplit := countP_bool_split (msgSuccess del) msgs
    omega
  · rw [hmodel, h120]

/-- Concrete run of the emptySpam batching theorem: 120 messages, every
delete succeeding. -/
theorem emptySpam_batches_checked :
    (msgs120.length = 120 ∧ ∀ m ∈ msgs120, m.id.isSome) ∧
    (batchSizes msgs120 = [50, 50, 20] ∧
      (emptySpamModel true msgs120 (fun _ => true)).pauses = 2 ∧
      (emptySpamModel true msgs120 (fun _ => true)).attempts = 120 ∧
      (emptySpamModel true msgs120 (fun _ => true)).deletedCount =
        120 - msgs120.countP (fun m => !(msgSuccess (fun _ => true) m)) ∧
      (emptySpamModel true msgs120 (fun _ => true)).totalFound = 120) :=
  ⟨⟨by decide, by decide⟩,
    emptySpam_batches msgs120 (fun _ => true) (by decide) (by decide)⟩

/-- C4: an emptySpam call without confirmation returns the structured
refusal payload and performs nothing: no listing call, no delete attempt,
no deletion, no pause. -/
theorem emptySpam_refusal (msgs : List SpamMsg) (del : String → Bool) :
    emptySpamModel false msgs del =
      { refused := true, totalFound := 0, deletedCount := 0,
        pauses := 0, attempts := 0, listCalls := 0 } := rfl

/-- C5: sendEmail rejects with a validation error, before any send call is
reached, whenever the subject exceeds 255 characters, the body exceeds
10000 characters, or any address of to, cc or bcc fails the format check;
the over-long fields are rejected, not truncated. -/
theorem sendEmail_validation (toRcpt : List String) (subject body : String)
    (cc bcc : List String) :
    (subject.length > 255 →
      ∃ m, sendEmailModel toRcpt subject body cc bcc = .validationError m) ∧
    (body.length > 10000 →
      ∃ m, sendEmailModel toRcpt subject body cc bcc = .validationError m) ∧
    ((∃ e ∈ toRcpt ++ cc ++ bcc, validateEmail e = false) →
      ∃ m, sendEmailModel toRcpt subject body cc bcc = .validationError m) := by
  unfold sendEmailModel
  refine ⟨?_, ?_, ?_⟩
  · intro hs
    by_cases h1 : toRcpt.isEmpty
    · exact ⟨"Recipients (to) must be a non-empty array", by simp [h1]⟩
    · exact ⟨"Subject must be a string with max 255 characters", by simp [h1, hs]⟩
  · intro hb
    by_cases h1 : toRcpt.isEmpty
    · exact ⟨"Recipients (to) must be a non-empty array", by simp [h1]⟩
    · by_cases h2 : ((subject == "") || decide (subject.length > 255)) = true
      · exact ⟨"Subject must be a string with max 255 characters", by simp [h1, h2]⟩
      · exact ⟨"Body must be a string with max 10000 characters", by simp [h1, h2, hb]⟩
  · rintro ⟨e, he, hbad⟩
    by_cases h1 : toRcpt.isEmpty
    · exact ⟨"Recipients (to) must be a non-empty array", by simp [h1]⟩
    · by_cases h2 : ((subject == "") || decide (subject.length > 255)) = true
      · exact ⟨"Subject must be a string with max 255 characters", by simp [h1, h2]⟩
      · by_cases h3 : ((body == "") || decide (body.length > 10000)) = true
        · exact ⟨"Body must be a string with max 10000 characters", by simp [h1, h2, h3]⟩
        · have hfind : ((toRcpt ++ cc ++ bcc).find? (fun e => !(validateEmail e))).isSome := by
            rw [List.find?_isSome]
            exact ⟨e, he, by simp [hbad]⟩
          obtain ⟨e2, he2⟩ := Option.isSome_iff_exists.mp hfind
          refine ⟨"Invalid email address: " ++ e2, ?_⟩
          rw [if_neg h1, if_neg h2, if_neg h3, he2]

/-- Taking the last of a longer list with a fallback drops the old head
into the fallback slot. -/
theorem lastD_cons (c : String) (l : List String) (d : String) :
    lastD (c :: l) d = lastD l c := by
  cases l with
  | nil => rfl
  | cons x xs =>
    obtain ⟨y, hy⟩ := Option.isSome_iff_exists.mp
      (List.getLast?_isSome.mpr (List.cons_ne_nil x xs))
    simp only [lastD, List.getLast?_cons_cons, hy, Option.getD_some]

/-- One optional element in front of a list shifts the fallback of the
last-or-fallback selection. -/
theorem lastD_step (o : Option String) (rest : List String) (d : String) :
    lastD (match o with | none => rest | some c => c :: rest) d
      = lastD rest (o.getD d) := by
  cases o with
  | some c => exact lastD_cons c rest d
  | none => rfl

/-- The step of the walk, written as one record: the node's html data (if
any) replaces the html body, its plain-text data the text body, and an
attachment node bumps the count. -/
theorem extractStep_fields (s : ExtractState) (p : MimePart) :
    extractStep s p =
      ⟨(htmlData1 p).getD s.htmlBody, (textData1 p).getD s.textBody,
        s.attachmentCount + (if isAttachmentPart p then 1 else 0)⟩ := by
  obtain ⟨m, d, f, a, kids⟩ := p
  simp only [extractStep, htmlData1, textData1, isAttachmentPart,
    MimePart.bodyData, MimePart.mimeType, MimePart.filename,
    MimePart.attachmentId]
  rcases d with _ | c
  · by_cases hatt : ¬f = "" ∧ a.isSome = true <;> simp [hatt]
  · by_cases hh : m = "text/html"
    · by_cases hatt : ¬f = "" ∧ a.isSome = true <;> simp [hh, hatt]
    · by_cases hp : m = "text/plain" <;>
        by_cases hatt : ¬f = "" ∧ a.isSome = true <;>
        simp [hh, hp, hatt]

/-- The recursive walk of extractContent equals a fold of its per-node step
over the preorder listing of the forest. -/
theorem extractWalk_eq_foldl :
    ∀ (n : Nat) (l : List MimePart), sizeOf l ≤ n →
      ∀ s, extractWalk l s = (preorder l).foldl extractStep s := by
  intro n
  induction n with
  | zero =>
    intro l hl s
    match l with
    | [] => simp [extractWalk, preorder]
    | p :: rest => simp [List.cons.sizeOf_spec] at hl
  | succ k ih =>
    intro l hl s
    match l with
    | [] => simp [extractWalk, preorder]
    | .node m d f a kids :: rest =>
      have hsz : sizeOf kids ≤ k ∧ sizeOf rest ≤ k := by
        simp only [List.cons.sizeOf_spec, MimePart.node.sizeOf_spec] at hl
        omega
      rw [extractWalk, preorder, List.foldl_cons, List.foldl_append,
        ← ih kids hsz.1, ← ih rest hsz.2]

/-- Folding the per-node step over a list leaves the last html body, the
last plain-text body and the bumped attachment count. -/
theorem foldl_extractStep_spec :
    ∀ (l : List MimePart) (s : ExtractState),
      l.foldl extractStep s =
        ⟨lastD (htmlDatas l) s.htmlBody, lastD (textDatas l) s.textBody,
          s.attachmentCount + l.countP isAttachmentPart⟩ := by
  intro l
  induction l with
  | nil =>
    intro s
    simp [lastD, htmlDatas, textDatas]
  | cons p rest ih =>
    intro s
    rw [List.foldl_cons, ih]
    rw [extractStep_fields]
    simp only [ExtractState.mk.injEq]
    refine ⟨?_, ?_, ?_⟩
    · rcases hh1 : htmlData1 p with _ | b
      · simp [htmlDatas, List.filterMap_cons, hh1]
      · simp [htmlDatas, List.filterMap_cons, hh1, lastD_cons]
    · rcases ht1 : textData1 p with _ | b
      · simp [textDatas, List.filterMap_cons, ht1]
      · simp [textDatas, List.filterMap_cons, ht1, lastD_cons]
    · rw [List.countP_cons]
      by_cases hp : isAttachmentPart p
      · simp [hp]
        omega
      · simp [hp]

/-- extractContent on one payload, characterized declaratively. -/
theorem extractContent_spec (p : MimePart) (s : ExtractState) :
    extractContent p s =
      ⟨lastD (htmlDatas (preorder [p])) s.htmlBody,
        lastD (textDatas (preorder [p])) s.textBody,
        s.attachmentCount + (preorder [p]).countP isAttachmentPart⟩ := by
  unfold extractContent
  rw [extractWalk_eq_foldl (sizeOf [p]) [p] le_rfl, foldl_extractStep_spec]

/-- C3 (amended): readEmailHtml walks the whole part tree recursively and
keeps the last html body and the last plain-text body encountered in visit
order (a later one overwrites an earlier one); it counts the parts carrying
both a filename and an attachment id; exactly when the kept plain-text
body is empty and the kept html body is not, the readable content is
derived from the html by the fixed pipeline (break and closing-paragraph
tags to newlines, tags stripped, the five fixed entities unescaped, then
trimmed); and the reported textContent is truncated to 10000 characters. -/
theorem readEmailHtml_walk (payload : MimePart) :
    readEmailHtmlModel payload =
      { textContent := strTake
          (if (lastD (textDatas (preorder [payload])) "" == "")
              && (lastD (htmlDatas (preorder [payload])) "" != "")
           then htmlToText (lastD (htmlDatas (preorder [payload])) "")
           else lastD (textDatas (preorder [payload])) "") 10000
        hasHtml := lastD (htmlDatas (preorder [payload])) "" != ""
        attachmentCount := (preorder [payload]).countP isAttachmentPart
        contentType :=
          if lastD (htmlDatas (preorder [payload])) "" != "" then "html"
          else "text" } := by
  unfold readEmailHtmlModel
  rw [extractContent_spec]
  simp

/-- C3 counterexample: with two plain-text parts holding A then B, the
first plain-text body encountered is A, but readEmailHtml reports B: the
walk keeps the last encountered body, not the first. -/
theorem readEmailHtml_first_cex :
    (textDatas (preorder [cexHtmlPayload])).head? = some "A" ∧
    (readEmailHtmlModel cexHtmlPayload).textContent = "B" ∧
    ("B" : String) ≠ "A" := by
  refine ⟨?_, ?_, by decide⟩
  · simp [textDatas, preorder, cexHtmlPayload, textData1, MimePart.bodyData,
      MimePart.mimeType]
  · simp [readEmailHtmlModel, extractContent, cexHtmlPayload, extractWalk,
      extractStep, MimePart.bodyData, MimePart.mimeType, MimePart.filename,
      MimePart.attachmentId, strTake]

/-- The top-level scan equals the declarative first-match of the spec. -/
theorem scanTopLevel_eq_find (parts : List MimePart) :
    scanTopLevel parts
      = (((parts.find?
          (fun q => (q.mimeType == "text/plain") && q.bodyData.isSome)).bind
          MimePart.bodyData).getD "") := by
  induction parts with
  | nil => rfl
  | cons q rest ih =>
    obtain ⟨mq, dq, fq, aq, kq⟩ := q
    by_cases hm : mq = "text/plain"
    · have hb : (mq == "text/plain") = true := by simp [hm]
      cases dq with
      | some d =>
        simp [scanTopLevel, List.find?, MimePart.mimeType, MimePart.bodyData,
          hm, hb]
      | none =>
        simp [scanTopLevel, List.find?, MimePart.mimeType, MimePart.bodyData,
          hm, hb, ih]
    · have hb : (mq == "text/plain") = false := by simp [hm]
      simp [scanTopLevel, List.find?, MimePart.mimeType, MimePart.bodyData,
        hm, hb, ih]

/-- The top-level scan never reads the nested parts: pruning every child
changes nothing. -/
theorem scanTopLevel_prune (parts : List MimePart) :
    scanTopLevel (parts.map pruneChild) = scanTopLevel parts := by
  induction parts with
  | nil => rfl
  | cons q rest ih =>
    obtain ⟨mq, dq, fq, aq, kq⟩ := q
    by_cases hm : mq = "text/plain"
    · cases dq <;>
        simp [scanTopLevel, pruneChild, MimePart.mimeType, MimePart.bodyData, hm, ih]
    · simp [scanTopLevel, pruneChild, MimePart.mimeType, MimePart.bodyData, hm, ih]

/-- C6 (amended): for a message whose top-level payload carries no body
data, readEmail takes the decoded data of the first immediate text slash
plain part that carries data, never descending into nested containers
(pruning every nested child changes nothing), and the body field is
truncated to 5000 characters. When the payload carries data directly, that
data is returned instead (see the counterexample and the implicit claim). -/
theorem readEmail_toplevel_scan (m f : String) (a : Option String)
    (parts : List MimePart) :
    readEmailBody (.node m none f a parts)
      = strTake ((firstPlainTop (.node m none f a parts)).getD "") 5000 ∧
    extractBody (.node m none f a parts)
      = extractBody (.node m none f a (parts.map pruneChild)) := by
  constructor
  · show strTake (extractBody (.node m none f a parts)) 5000 = _
    rw [show extractBody (.node m none f a parts) = scanTopLevel parts from rfl,
      scanTopLevel_eq_find]
    rfl
  · show scanTopLevel parts = scanTopLevel (parts.map pruneChild)
    exact (scanTopLevel_prune parts).symm

/-- C6 counterexample: a payload with direct html body data above a
plain-text part: readEmail returns the html data, not the result of the
top-level plain-text scan. -/
theorem readEmail_direct_cex :
    readEmailBody cexReadPayload = "<h1>x</h1>" ∧
    firstPlainTop cexReadPayload = some "hello" ∧
    ("<h1>x</h1>" : String) ≠ "hello" :=
  ⟨rfl, rfl, by decide⟩

/-- C10: a payload carrying body data directly returns that decoded data
whatever its MIME type (text slash html included), and only a payload
without direct body data reaches the scan of its immediate parts. -/
theorem extractBody_direct :
    (∀ (m f d : String) (a : Option String) (kids : List MimePart),
      extractBody (.node m (some d) f a kids) = d) ∧
    (∀ (m f : String) (a : Option String) (kids : List MimePart),
      extractBody (.node m none f a kids) = scanTopLevel kids) :=
  ⟨fun _ _ _ _ _ => rfl, fun _ _ _ _ => rfl⟩

/-- The alphabet value of the alphabet character of any six-bit value. -/
theorem b64UrlVal_b64UrlChar (v : Nat) (hv : v < 64) :
    b64UrlVal (b64UrlChar v) = some v := by
  have h : ∀ w : Fin 64, b64UrlVal (b64UrlChar w.val) = some w.val := by decide
  exact h ⟨v, hv⟩

/-- Mapping six-bit values through the alphabet and back recovers them. -/
theorem filterMap_b64_map (l : List Nat) (hl : ∀ v ∈ l, v < 64) :
    List.filterMap b64UrlVal (l.map b64UrlChar) = l := by
  induction l with
  | nil => rfl
  | cons x xs ih =>
    rw [List.map_cons, List.filterMap_cons,
      b64UrlVal_b64UrlChar x (hl x (List.mem_cons_self _ _)),
      ih (fun v hv => hl v (List.mem_cons_of_mem _ hv))]

/-- The six-bit groups of a byte list are six-bit values. -/
theorem bytesToSextets_lt :
    ∀ (n : Nat) (bs : List Nat), bs.length ≤ n → (∀ b ∈ bs, b < 256) →
      ∀ v ∈ bytesToSextets bs, v < 64 := by
  intro n
  induction n with
  | zero =>
    intro bs hn _ v hv
    have : bs = [] := List.length_eq_zero.mp (Nat.le_zero.mp hn)
    subst this
    simp [bytesToSextets] at hv
  | succ k ih =>
    intro bs hn hb v hv
    match bs with
    | [] => simp [bytesToSextets] at hv
    | [a] =>
      have ha := hb a (by simp)
      simp [bytesToSextets] at hv
      rcases hv with rfl | rfl <;> omega
    | [a, b] =>
      have ha := hb a (by simp)
      have hb2 := hb b (by simp)
      simp [bytesToSextets] at hv
      rcases hv with rfl | rfl | rfl <;> omega
    | a :: b :: c :: rest =>
      have ha := hb a (by simp)
      have hb2 := hb b (by simp)
      have hc := hb c (by simp)
      have hrest : ∀ x ∈ rest, x < 256 := fun x hx => hb x (by simp [hx])
      have hlen : rest.length ≤ k := by
        simp only [List.length_cons] at hn
        omega
      simp only [bytesToSextets, List.mem_cons] at hv
      rcases hv with rfl | rfl | rfl | rfl | hv
      · omega
      · omega
      · omega
      · omega
      · exact ih rest hlen hrest v hv

/-- Regrouping the six-bit groups of a byte list recovers the bytes. -/
theorem sextetsToBytes_bytesToSextets :
    ∀ (n : Nat) (bs : List Nat), bs.length ≤ n → (∀ b ∈ bs, b < 256) →
      sextetsToBytes (bytesToSextets bs) = bs := by
  intro n
  induction n with
  | zero =>
    intro bs hn _
    have : bs = [] := List.length_eq_zero.mp (Nat.le_zero.mp hn)
    subst this
    rfl
  | succ k ih =>
    intro bs hn hb
    match bs with
    | [] => rfl
    | [a] =>
      have ha := hb a (by simp)
      simp only [bytesToSextets, sextetsToBytes]
      congr 1
      omega
    | [a, b] =>
      have ha := hb a (by simp)
      have hb2 := hb b (by simp)
      simp only [bytesToSextets, sextetsToBytes]
      congr 1
      · omega
      · congr 1
        omega
    | a :: b :: c :: rest =>
      have ha := hb a (by simp)
      have hb2 := hb b (by simp)
      have hc := hb c (by simp)
      have hrest : ∀ x ∈ rest, x < 256 := fun x hx => hb x (by simp [hx])
      have hlen : rest.length ≤ k := by
        simp only [List.length_cons] at hn
        omega
      simp only [bytesToSextets, sextetsToBytes]
      rw [ih rest hlen hrest]
      congr 1
      · omega
      · congr 1
        · omega
        · congr 1
          omega

/-- C7: downloadAttachment writes exactly the bytes decoded from the
URL-safe base64 payload of the attachment endpoint, the size it reports is
the byte count of that written buffer, and the decoder really inverts the
URL-safe base64 encoding of any byte list. -/
theorem downloadAttachment_size (d : String) (bs : List Nat)
    (hd : d ≠ "") (hbs : ∀ b ∈ bs, b < 256) :
    downloadAttachmentModel (some d)
      = some ⟨base64urlDecode d, (base64urlDecode d).length⟩ ∧
    base64urlDecode (base64urlEncode bs) = bs := by
  constructor
  · simp [downloadAttachmentModel, hd]
  · show sextetsToBytes
        (List.filterMap b64UrlVal ((bytesToSextets bs).map b64UrlChar)) = bs
    rw [filterMap_b64_map _ (bytesToSextets_lt bs.length bs le_rfl hbs),
      sextetsToBytes_bytesToSextets bs.length bs le_rfl hbs]

/-- Concrete run of the downloadAttachment theorem: the payload SGVsbG8
decodes to the five bytes of the word Hello. -/
theorem downloadAttachment_size_checked :
    (("SGVsbG8" : String) ≠ "" ∧ ∀ b ∈ [72, 101, 108, 108, 111], b < 256) ∧
    (downloadAttachmentModel (some "SGVsbG8")
        = some ⟨base64urlDecode "SGVsbG8", (base64urlDecode "SGVsbG8").length⟩ ∧
      base64urlDecode (base64urlEncode [72, 101, 108, 108, 111])
        = [72, 101, 108, 108, 111]) :=
  ⟨⟨by decide, by decide⟩,
    downloadAttachment_size "SGVsbG8" [72, 101, 108, 108, 111] (by decide) (by decide)⟩

/-- C8: sanitizeInput removes every angle bracket and then trims surrounding
whitespace and nothing else, and on the spec's example input it produces
exactly the spec's expected output. -/
theorem sanitizeInput_spec :
    (∀ s : String, sanitizeInput s = sanitizeSpec s) ∧
    sanitizeInput "<script>x</script>  " = "scriptx/script" := by
  constructor
  · intro s
    unfold sanitizeInput sanitizeSpec
    rw [gsub_angle_eq_filter]
  · decide

end GmailMcp
